import Mathlib

/-!
Verification development for the noteglow Transform & Definition Pipeline.

Strings from the TypeScript source are embedded as `List Char` (the inputs of
interest are ASCII, so JavaScript's UTF-16 code-unit semantics and this
embedding agree).  Each definition mirrors one function of the repository:

* `highlightKeyTerms`, `escapeRegex`, `removeHighlights` — the highlight
  utility module (term overlay engine and its inverse);
* `transformPost` — the `/api/transform` route handler after the upstream
  chat-completion call returned (in-band error scan, recovery, coercion),
  together with its credential gate;
* `termDefinitionPost` — the `/api/term-definition` route handler;
* `loadTermDefinitions` — the client hook that fans out per-term definition
  lookups and builds the definition cache;
* `runRace` — the observable cache state after two overlapping definition
  batches settle in a given order.

The JavaScript regular expression `\b<escaped term>\b` with flags `gi` is
embedded by `parsePat`/`itemsMatch` (single-character matchers, explicit word
boundaries, case-insensitive comparison) and a fuel-indexed scan `passGo`
that reproduces `String.replace` left-to-right non-overlapping replacement
including the callback's `result.indexOf(match)` based in-tag test.
-/

namespace NoteGlow

/-! ## Character classes (JavaScript `\w`, `\s`, case folding for flag `i`) -/

/-- JavaScript word character `[A-Za-z0-9_]`, as used by the `\b` assertion. -/
def isWordChar (c : Char) : Bool :=
  c.isAlpha || c.isDigit || c == '_'

/-- ASCII whitespace, the characters removed by `String.prototype.trim`
relevant to this code base. -/
def isSpaceChar (c : Char) : Bool :=
  c == ' ' || c == '\t' || c == '\n' || c == '\r' || c == '\x0b' || c == '\x0c'

/-- A term the highlight loop skips: empty or whitespace-only
(`!term || term.trim().length === 0`). -/
def isBlankTerm (t : List Char) : Bool :=
  t.all isSpaceChar

/-! ## `escapeRegex` and the regular-expression fragment it produces -/

/-- Characters escaped by `escapeRegex` (the class `[.*+?^${}()|[\]\\]`). -/
def isRegexMeta (c : Char) : Bool :=
  c == '.' || c == '*' || c == '+' || c == '?' || c == '^' || c == '$' ||
  c == '\x7b' || c == '\x7d' || c == '(' || c == ')' || c == '|' ||
  c == '[' || c == ']' || c == '\\'

/-- Function `escapeRegex` from the highlight module:
`str.replace(/[.*+?^${}()|[\]\\]/g, '\\$&')` — prefix every metacharacter
with a backslash. -/
def escapeRegex (t : List Char) : List Char :=
  t.flatMap (fun c => if isRegexMeta c then ['\\', c] else [c])

/-- Single-character matcher of the regular-expression fragment the engine
actually uses: a literal character or the any-character wildcard `.`. -/
inductive PatItem where
  | lit (c : Char)
  | dot
  deriving DecidableEq

/-- Interpret a pattern string as a sequence of single-character matchers.
`\c` is the literal `c`, an unescaped `.` is the wildcard, and any other
unescaped metacharacter (an operator or anchor in a real engine) is outside
this literal fragment, so parsing fails — this is how a term that reached
`new RegExp` unescaped would stop behaving as a literal substring. -/
def parsePat : List Char → Option (List PatItem)
  | [] => some []
  | c :: rest =>
    if c = '\\' then
      match rest with
      | [] => none
      | d :: rest' => (parsePat rest').map (PatItem.lit d :: ·)
    else if c = '.' then (parsePat rest).map (PatItem.dot :: ·)
    else if isRegexMeta c then none
    else (parsePat rest).map (PatItem.lit c :: ·)

/-- One matcher against one subject character, case-insensitively (flag `i`). -/
def itemMatch : PatItem → Char → Bool
  | PatItem.lit d, c => c.toLower == d.toLower
  | PatItem.dot, c => c != '\n'

/-- Matcher sequence against a prefix of the subject suffix. -/
def itemsMatch : List PatItem → List Char → Bool
  | [], _ => true
  | _ :: _, [] => false
  | it :: its, c :: cs => itemMatch it c && itemsMatch its cs

/-- Wordness of the character at index `i` (out of range counts as non-word). -/
def wordAt (s : List Char) (i : Nat) : Bool :=
  match s[i]? with
  | some c => isWordChar c
  | none => false

/-- JavaScript `\b`: position `i` lies between a word and a non-word
character (the edges of the string count as non-word). -/
def boundaryAt (s : List Char) (i : Nat) : Bool :=
  (if i = 0 then false else wordAt s (i - 1)) != wordAt s i

/-- A whole-word, case-insensitive match of the compiled term at index `i`:
`\b`, the escaped term, `\b`. -/
def ciMatchAt (s : List Char) (items : List PatItem) (i : Nat) : Bool :=
  boundaryAt s i && boundaryAt s (i + items.length) && itemsMatch items (s.drop i)

/-! ## The in-tag test of the replacement callback -/

/-- JavaScript `String.includes`: does `pat` occur as a contiguous substring
of `s`? -/
def containsSub (pat : List Char) : List Char → Bool
  | [] => pat.isEmpty
  | c :: t => pat.isPrefixOf (c :: t) || containsSub pat t

/-- First index at which `pat` occurs in `s` (JavaScript `String.indexOf`,
case-sensitive), `none` when absent. -/
def indexOfSub (s pat : List Char) : Option Nat :=
  if pat.isPrefixOf s then some 0
  else
    match s with
    | [] => none
    | _ :: t => (indexOfSub t pat).map (· + 1)

/-- JavaScript `String.lastIndexOf` for a single character: `-1` when absent. -/
def lastIndexOfC (l : List Char) (c : Char) : Int :=
  match l.reverse.findIdx? (· == c) with
  | none => -1
  | some k => (l.length : Int) - 1 - (k : Int)

/-- The callback's in-tag test: take the text before the FIRST occurrence of
the matched text in the whole subject (`result.indexOf(match)`), and report
"inside a tag" when its last `<` comes after its last `>`.  When the matched
text does not occur (impossible at a real call site; `indexOf` would give
`-1` and `substring(0, -1)` the empty string) the test is false. -/
def inTagCheck (s slice : List Char) : Bool :=
  match indexOfSub s slice with
  | none => false
  | some j =>
    let beforeMatch := s.take j
    lastIndexOfC beforeMatch '<' > lastIndexOfC beforeMatch '>'

/-! ## One `result.replace(regex, cb)` pass and the full engine -/

/-- The emphasis marker inserted before a kept match. -/
def markOpen : List Char := ['<', 'm', 'a', 'r', 'k', '>']

/-- Closing emphasis marker. -/
def markClose : List Char := ['<', '/', 'm', 'a', 'r', 'k', '>']

/-- Left-to-right non-overlapping global replacement: at each index either the
compiled term matches (emit it, wrapped unless the in-tag test fires, and
continue after it) or the current character is copied.  `fuel` only bounds the
recursion; `orig.length` is always enough, and on exhaustion the untouched
suffix is emitted. -/
def passGo (orig : List Char) (items : List PatItem) : Nat → Nat → List Char
  | 0, i => orig.drop i
  | fuel + 1, i =>
    match orig.drop i with
    | [] => []
    | c :: _ =>
      if ciMatchAt orig items i then
        let slice := (orig.drop i).take items.length
        (if inTagCheck orig slice then slice
         else markOpen ++ slice ++ markClose) ++
          passGo orig items fuel (i + items.length)
      else c :: passGo orig items fuel (i + 1)

/-- One iteration of the `for (const term of sortedTerms)` body on a
non-blank term: compile `\b` + escaped term + `\b` and run the global
replacement over the current string.  The `none` branch (invalid pattern,
where `new RegExp` would throw) is unreachable for escaped terms, as proved
below. -/
def runPass (acc term : List Char) : List Char :=
  match parsePat (escapeRegex term) with
  | none => acc
  | some items => passGo acc items acc.length 0

/-- Loop body including the blank-term `continue`. -/
def passStep (acc term : List Char) : List Char :=
  if isBlankTerm term then acc else runPass acc term

/-- Stable insertion of a term into a list sorted by descending length. -/
def insertTerm (t : List Char) : List (List Char) → List (List Char)
  | [] => [t]
  | h :: rest =>
    if t.length < h.length then h :: insertTerm t rest else t :: h :: rest

/-- Stable sort by descending character length — the observable behaviour of
`[...keyTerms].sort((a, b) => b.length - a.length)` (ECMAScript sort is
stable, and a stable sort for a given key order is unique). -/
def sortTermsDesc : List (List Char) → List (List Char)
  | [] => []
  | h :: rest => insertTerm h (sortTermsDesc rest)

/-- Function `highlightKeyTerms(htmlContent, keyTerms)`: early return on an empty term
list, then one replacement pass per term, longest term first. -/
def highlightKeyTerms (htmlContent : List Char) (keyTerms : List (List Char)) :
    List Char :=
  if keyTerms.isEmpty then htmlContent
  else (sortTermsDesc keyTerms).foldl passStep htmlContent

/-! ## `removeHighlights` -/

/-- One attempt of the pattern `<mark>([^<]*)<\/mark>` at the head of `s`:
on success, the captured run of non-`<` characters and the remainder. -/
def splitMark (s : List Char) : Option (List Char × List Char) :=
  if markOpen.isPrefixOf s then
    let r := s.drop 6
    let content := r.takeWhile (fun c => c != '<')
    let r2 := r.dropWhile (fun c => c != '<')
    if markClose.isPrefixOf r2 then some (content, r2.drop 7) else none
  else none

/-- Fuel-indexed scan of `htmlContent.replace(/<mark>([^<]*)<\/mark>/g, '$1')`:
replace each match by its capture, otherwise copy one character.  Fuel
`s.length` is always sufficient. -/
def removeGoF : Nat → List Char → List Char
  | 0, s => s
  | _ + 1, [] => []
  | fuel + 1, c :: t =>
    match splitMark (c :: t) with
    | some (content, rest) => content ++ removeGoF fuel rest
    | none => c :: removeGoF fuel t

/-- Function `removeHighlights(htmlContent)` from the highlight module. -/
def removeHighlights (s : List Char) : List Char :=
  removeGoF s.length s

/-! ## Lemmas about the compiled pattern of an escaped term -/

/-- Escaping and then reading back the pattern always succeeds and yields the
literal characters of the term: `escapeRegex` makes any term a literal
pattern, so `new RegExp` cannot throw and no metacharacter acts as an
operator. -/
theorem parsePat_escapeRegex (t : List Char) :
    parsePat (escapeRegex t) = some (t.map PatItem.lit) := by
  induction t with
  | nil => rfl
  | cons c t ih =>
    by_cases hc : isRegexMeta c = true
    · simp only [escapeRegex, List.flatMap_cons, hc, if_pos]
      simp only [escapeRegex] at ih
      simp [parsePat, ih]
    · have hback : ¬c = '\\' := by
        intro h; subst h; simp [isRegexMeta] at hc
      have hdot : ¬c = '.' := by
        intro h; subst h; simp [isRegexMeta] at hc
      simp only [escapeRegex, List.flatMap_cons, hc, if_neg, Bool.false_eq_true,
        not_false_iff]
      simp only [escapeRegex] at ih
      rw [parsePat.eq_def]
      simp [hback, hdot, hc, ih]

/-! ## Lemmas about the descending-length sort -/

/-- Length order used by the sort. -/
def lenGE (a b : List Char) : Prop := b.length ≤ a.length

/-- The head of an insertion is either the inserted term or the old head. -/
theorem insertTerm_head? (t : List Char) (l : List (List Char)) :
    (insertTerm t l).head? = some t ∨ (insertTerm t l).head? = l.head? := by
  cases l with
  | nil => left; rfl
  | cons b l' =>
    by_cases hb : t.length < b.length
    · right; simp [insertTerm, hb]
    · left; simp [insertTerm, hb]

/-- Inserting into a descending-length chain keeps it a descending chain. -/
theorem chain'_insertTerm (t : List Char) (l : List (List Char))
    (h : List.Chain' lenGE l) : List.Chain' lenGE (insertTerm t l) := by
  induction l with
  | nil => simp [insertTerm]
  | cons a l ih =>
    rcases List.chain'_cons'.mp h with ⟨hhead, htail⟩
    by_cases ha : t.length < a.length
    · simp only [insertTerm, ha, if_pos]
      refine List.chain'_cons'.mpr ⟨?_, ih htail⟩
      intro y hy
      rcases insertTerm_head? t l with hh | hh
      · rw [hh] at hy
        simp only [Option.mem_def, Option.some.injEq] at hy
        subst hy
        exact Nat.le_of_lt ha
      · rw [hh] at hy
        exact hhead y hy
    · simp only [insertTerm, ha, if_neg, not_false_iff]
      refine List.chain'_cons'.mpr ⟨?_, h⟩
      intro y hy
      simp only [List.head?_cons, Option.mem_def, Option.some.injEq] at hy
      subst hy
      exact Nat.le_of_not_lt ha

/-- The sorted term list is always in descending length order. -/
theorem sortTermsDesc_chain' (ts : List (List Char)) :
    List.Chain' lenGE (sortTermsDesc ts) := by
  induction ts with
  | nil => simp [sortTermsDesc]
  | cons a ts ih => exact chain'_insertTerm a _ ih

/-! ## Lemmas about `splitMark` and `removeGoF` -/

/-- A string not starting with `<` never starts a marker match. -/
theorem splitMark_none_of_head (c : Char) (t : List Char) (hc : ¬c = '<') :
    splitMark (c :: t) = none := by
  have hpre : markOpen.isPrefixOf (c :: t) = false := by
    simp only [markOpen, List.isPrefixOf]
    simp [Ne.symm hc]
  simp [splitMark, hpre]

/-- Splitting the takeWhile/dropWhile pair of an append whose left part
satisfies the predicate and whose right part starts with a failing
character. -/
theorem takeWhile_app_cons (p : Char → Bool) (l₁ : List Char) (c : Char)
    (l₂ : List Char) (h₁ : ∀ x ∈ l₁, p x = true) (h₂ : p c = false) :
    (l₁ ++ c :: l₂).takeWhile p = l₁ ∧ (l₁ ++ c :: l₂).dropWhile p = c :: l₂ := by
  induction l₁ with
  | nil => simp [List.takeWhile, List.dropWhile, h₂]
  | cons a l₁ ih =>
    have ha : p a = true := h₁ a (List.mem_cons_self a l₁)
    have hrest := ih (fun x hx => h₁ x (List.mem_cons_of_mem a hx))
    simp [List.takeWhile, List.dropWhile, ha, hrest.1, hrest.2]

/-- Reconstruction: a successful marker split decomposes the string as
open-marker, `<`-free capture, close-marker, remainder. -/
theorem splitMark_eq_some (s content rest : List Char)
    (h : splitMark s = some (content, rest)) :
    s = markOpen ++ content ++ markClose ++ rest ∧ ∀ c ∈ content, ¬c = '<' := by
  by_cases h₁ : markOpen.isPrefixOf s
  · obtain ⟨t₁, ht₁⟩ := List.isPrefixOf_iff_prefix.mp h₁
    subst ht₁
    have hd6 : (markOpen ++ t₁).drop 6 = t₁ := by
      rw [show (6 : Nat) = markOpen.length from rfl, List.drop_left]
    simp only [splitMark, h₁, if_pos, hd6] at h
    by_cases h₂ : markClose.isPrefixOf (t₁.dropWhile (fun c => c != '<'))
    · simp only [h₂, if_pos, Option.some.injEq, Prod.mk.injEq] at h
      obtain ⟨hcontent, hrest⟩ := h
      obtain ⟨t₂, ht₂⟩ := List.isPrefixOf_iff_prefix.mp h₂
      have hd7 : (t₁.dropWhile (fun c => c != '<')).drop 7 = t₂ := by
        rw [← ht₂, show (7 : Nat) = markClose.length from rfl, List.drop_left]
      rw [hd7] at hrest
      constructor
      · have hs : t₁ = t₁.takeWhile (fun c => c != '<') ++ (markClose ++ t₂) := by
          rw [ht₂]
          exact (List.takeWhile_append_dropWhile _ _).symm
        rw [← hcontent, ← hrest]
        conv_lhs => rw [hs]
        simp [List.append_assoc]
      · intro c hc
        rw [← hcontent] at hc
        have := List.mem_takeWhile_imp hc
        simpa using this
    · simp [h₂] at h
  · simp [splitMark, h₁] at h

/-- Forward computation: a marker block at the head splits off exactly. -/
theorem splitMark_append (content rest : List Char)
    (hfree : ∀ c ∈ content, ¬c = '<') :
    splitMark (markOpen ++ (content ++ (markClose ++ rest))) =
      some (content, rest) := by
  have hmc : markClose ++ rest = '<' :: ('/' :: 'm' :: 'a' :: 'r' :: 'k' :: '>' :: rest) := rfl
  rw [hmc]
  have h₁ : markOpen.isPrefixOf
      (markOpen ++ (content ++ ('<' :: ('/' :: 'm' :: 'a' :: 'r' :: 'k' :: '>' :: rest)))) :=
    List.isPrefixOf_iff_prefix.mpr (List.prefix_append _ _)
  have hdrop₆ :
      (markOpen ++ (content ++ ('<' :: ('/' :: 'm' :: 'a' :: 'r' :: 'k' :: '>' :: rest)))).drop 6 =
      content ++ ('<' :: ('/' :: 'm' :: 'a' :: 'r' :: 'k' :: '>' :: rest)) := by
    rw [show (6 : Nat) = markOpen.length from rfl, List.drop_left]
  have htd := takeWhile_app_cons (fun c => c != '<') content '<'
    ('/' :: 'm' :: 'a' :: 'r' :: 'k' :: '>' :: rest)
    (fun x hx => by simpa using hfree x hx) (by simp)
  have h₂ : markClose.isPrefixOf
      ('<' :: ('/' :: 'm' :: 'a' :: 'r' :: 'k' :: '>' :: rest)) = true := by
    show markClose.isPrefixOf (markClose ++ rest) = true
    exact List.isPrefixOf_iff_prefix.mpr (List.prefix_append _ _)
  have hdrop₇ :
      (('<' : Char) :: ('/' :: 'm' :: 'a' :: 'r' :: 'k' :: '>' :: rest)).drop 7 =
        rest := rfl
  simp only [splitMark, h₁, if_pos, hdrop₆, htd.1, htd.2, h₂, hdrop₇]

/-- Length accounting for a successful split. -/
theorem splitMark_length (s content rest : List Char)
    (h : splitMark s = some (content, rest)) :
    rest.length + 13 ≤ s.length := by
  have := (splitMark_eq_some s content rest h).1
  rw [this]
  simp [markOpen, markClose]

/-- Step equation of `removeGoF` at a successful split. -/
theorem removeGoF_step_some (fuel : Nat) (s content rest : List Char)
    (hne : s ≠ []) (hsp : splitMark s = some (content, rest)) :
    removeGoF (fuel + 1) s = content ++ removeGoF fuel rest := by
  cases s with
  | nil => exact absurd rfl hne
  | cons c t =>
    show (match splitMark (c :: t) with
      | some (content, rest) => content ++ removeGoF fuel rest
      | none => c :: removeGoF fuel t) = _
    rw [hsp]

/-- Step equation of `removeGoF` at a non-matching head. -/
theorem removeGoF_step_none (fuel : Nat) (c : Char) (t : List Char)
    (hsp : splitMark (c :: t) = none) :
    removeGoF (fuel + 1) (c :: t) = c :: removeGoF fuel t := by
  show (match splitMark (c :: t) with
    | some (content, rest) => content ++ removeGoF fuel rest
    | none => c :: removeGoF fuel t) = _
  rw [hsp]

/-- With enough fuel the result of `removeGoF` does not depend on the fuel. -/
theorem removeGoF_fuel (f₁ : Nat) : ∀ (f₂ : Nat) (s : List Char),
    s.length ≤ f₁ → s.length ≤ f₂ → removeGoF f₁ s = removeGoF f₂ s := by
  induction f₁ with
  | zero =>
    intro f₂ s h₁ _
    have : s = [] := List.length_eq_zero.mp (Nat.le_zero.mp h₁)
    subst this
    cases f₂ <;> rfl
  | succ f₁ ih =>
    intro f₂ s h₁ h₂
    cases s with
    | nil => cases f₂ <;> rfl
    | cons c t =>
      cases f₂ with
      | zero => simp at h₂
      | succ f₂' =>
        cases hsp : splitMark (c :: t) with
        | none =>
          rw [removeGoF_step_none f₁ c t hsp, removeGoF_step_none f₂' c t hsp]
          have ht₁ : t.length ≤ f₁ := by simpa using h₁
          have ht₂ : t.length ≤ f₂' := by simpa using h₂
          rw [ih f₂' t ht₁ ht₂]
        | some pr =>
          obtain ⟨content, rest⟩ := pr
          have hlen := splitMark_length _ _ _ hsp
          rw [removeGoF_step_some f₁ _ _ _ (by simp) hsp,
            removeGoF_step_some f₂' _ _ _ (by simp) hsp]
          have hr₁ : rest.length ≤ f₁ := by
            simp only [List.length_cons] at h₁ hlen; omega
          have hr₂ : rest.length ≤ f₂' := by
            simp only [List.length_cons] at h₂ hlen; omega
          rw [ih f₂' rest hr₁ hr₂]

/-- A `<`-free string passes through `removeGoF` unchanged. -/
theorem removeGoF_of_free (f : Nat) : ∀ (s : List Char),
    (∀ c ∈ s, ¬c = '<') → s.length ≤ f → removeGoF f s = s := by
  induction f with
  | zero =>
    intro s _ h
    have : s = [] := List.length_eq_zero.mp (Nat.le_zero.mp h)
    subst this; rfl
  | succ f ih =>
    intro s hfree hlen
    cases s with
    | nil => rfl
    | cons c t =>
      have hc : ¬c = '<' := hfree c (List.mem_cons_self c t)
      rw [removeGoF_step_none f c t (splitMark_none_of_head c t hc)]
      have := ih t (fun x hx => hfree x (List.mem_cons_of_mem c hx))
        (by simpa using hlen)
      rw [this]

/-! ## The in-tag test on `<`-free subjects -/

/-- A character that never occurs has `lastIndexOf` equal to `-1`. -/
theorem lastIndexOfC_eq_neg_one (l : List Char) (c : Char)
    (h : ∀ x ∈ l, ¬x = c) : lastIndexOfC l c = -1 := by
  have hnone : l.reverse.findIdx? (· == c) = none := by
    refine List.findIdx?_eq_none_iff.mpr ?_
    intro x hx
    simp [h x (List.mem_reverse.mp hx)]
  simp [lastIndexOfC, hnone]

/-- Result of `lastIndexOf` is never below `-1`. -/
theorem neg_one_le_lastIndexOfC (l : List Char) (c : Char) :
    -1 ≤ lastIndexOfC l c := by
  unfold lastIndexOfC
  cases hf : l.reverse.findIdx? (· == c) with
  | none => simp
  | some k =>
    have hk : k < l.reverse.length := (List.findIdx?_eq_some_iff_findIdx_eq.mp hf).1
    simp only [List.length_reverse] at hk
    simp only []
    omega

/-- On a `<`-free subject the callback's in-tag test never fires. -/
theorem inTagCheck_of_free (s slice : List Char) (hfree : ∀ c ∈ s, ¬c = '<') :
    inTagCheck s slice = false := by
  unfold inTagCheck
  cases hio : indexOfSub s slice with
  | none => rfl
  | some j =>
    simp only []
    have h1 : lastIndexOfC (s.take j) '<' = -1 :=
      lastIndexOfC_eq_neg_one _ _ (fun x hx => hfree x (List.mem_of_mem_take hx))
    have h2 : -1 ≤ lastIndexOfC (s.take j) '>' := neg_one_le_lastIndexOfC _ _
    rw [h1]
    simp only [gt_iff_lt, decide_eq_false_iff_not, not_lt]
    exact h2

/-! ## Round trip of a single pass over a `<`-free subject -/

/-- Removing the marker block produced around a `<`-free capture. -/
theorem removeGoF_mark (content rest : List Char) (hc : ∀ c ∈ content, ¬c = '<')
    (f : Nat) (hf : (markOpen ++ (content ++ (markClose ++ rest))).length ≤ f) :
    removeGoF f (markOpen ++ (content ++ (markClose ++ rest))) =
      content ++ removeGoF rest.length rest := by
  have hlen : (markOpen ++ (content ++ (markClose ++ rest))).length =
      content.length + rest.length + 13 := by
    simp [markOpen, markClose]
    omega
  cases f with
  | zero =>
    exfalso
    rw [hlen] at hf
    omega
  | succ f' =>
    rw [removeGoF_step_some f' _ _ _ (by simp [markOpen])
      (splitMark_append content rest hc)]
    have hrest : rest.length ≤ f' := by
      rw [hlen] at hf
      omega
    rw [removeGoF_fuel f' rest.length rest hrest (Nat.le_refl _)]

/-- Core inversion lemma: over a `<`-free subject, removing markers from the
output of one replacement pass recovers the untouched suffix of the subject.
Every match is wrapped (the in-tag test cannot fire without `<`), and every
wrapped or copied fragment is `<`-free, so `removeGoF` peels the output back
apart exactly. -/
theorem removeGoF_passGo (orig : List Char) (items : List PatItem)
    (hfree : ∀ c ∈ orig, ¬c = '<') :
    ∀ (fuel i : Nat),
      removeGoF (passGo orig items fuel i).length (passGo orig items fuel i) =
        orig.drop i := by
  intro fuel
  induction fuel with
  | zero =>
    intro i
    simp only [passGo]
    exact removeGoF_of_free _ _
      (fun c hc => hfree c (List.mem_of_mem_drop hc)) (Nat.le_refl _)
  | succ f ih =>
    intro i
    cases hdrop : orig.drop i with
    | nil =>
      simp [passGo, hdrop, removeGoF]
    | cons c cs =>
      have hcmem : c ∈ orig :=
        List.mem_of_mem_drop (by rw [hdrop]; exact List.mem_cons_self c cs)
      have hcne : ¬c = '<' := hfree c hcmem
      by_cases hm : ciMatchAt orig items i
      · have hnotag : inTagCheck orig ((c :: cs).take items.length) = false :=
          inTagCheck_of_free orig _ hfree
        have hstep : passGo orig items (f + 1) i =
            markOpen ++ (((c :: cs).take items.length) ++
              (markClose ++ passGo orig items f (i + items.length))) := by
          simp only [passGo, hdrop, hm, if_pos, hnotag, Bool.false_eq_true,
            if_false, List.append_assoc]
        have hslicefree : ∀ x ∈ (c :: cs).take items.length, ¬x = '<' := by
          intro x hx
          have hx' : x ∈ orig.drop i := by
            rw [hdrop]
            exact List.mem_of_mem_take hx
          exact hfree x (List.mem_of_mem_drop hx')
        rw [hstep, removeGoF_mark _ _ hslicefree _ (Nat.le_refl _), ih]
        have hdd : orig.drop (i + items.length) = (orig.drop i).drop items.length :=
          (List.drop_drop items.length i orig).symm
        rw [hdd, hdrop]
        exact List.take_append_drop _ _
      · have hstep : passGo orig items (f + 1) i =
            c :: passGo orig items f (i + 1) := by
          simp only [passGo, hdrop, hm, Bool.false_eq_true, if_false]
        rw [hstep]
        have hlen : (c :: passGo orig items f (i + 1)).length =
            (passGo orig items f (i + 1)).length + 1 := rfl
        rw [hlen, removeGoF_step_none _ _ _
          (splitMark_none_of_head c _ hcne), ih]
        have : orig.drop (i + 1) = cs := by
          rw [← List.tail_drop orig i, hdrop]
          rfl
        rw [this, ← hdrop]

/-! ## Claim C2 — markup safety of the in-tag test -/

/-- Claim C2 (code bug): on the spec's own example
`"<span class=\"cell\">cell</span>"` with term `"cell"`, the claim demands
that exactly the textual occurrence between the tags be wrapped.  The code
instead leaves the string completely unchanged: the callback locates the
match with `result.indexOf(match)`, i.e. the FIRST occurrence of the matched
text, which here lies inside the attribute value, so both occurrences are
classified as inside a tag.  This theorem evaluates the embedded engine at
the failing input: output equals input and no marker is inserted at all. -/
theorem highlight_markup_check_uses_first_occurrence :
    highlightKeyTerms ("<span class=\"cell\">cell</span>".data) [("cell".data)] =
      ("<span class=\"cell\">cell</span>".data) ∧
    containsSub markOpen
      (highlightKeyTerms ("<span class=\"cell\">cell</span>".data)
        [("cell".data)]) = false := by
  constructor
  · decide
  · decide

/-! ## Claim C4 — round trip of remove after highlight -/

/-- Claim C4 (counterexample): the round trip fails in general.  With the
`<`-free text `"a b"` and terms `["a b", "b"]`, the second pass nests a
marker inside the first (`"<mark>a <mark>b</mark></mark>"`), and the
remove pattern `<mark>([^<]*)<\/mark>` only strips the inner block in its
single global pass, leaving `"<mark>a b</mark>"` ≠ `"a b"`. -/
theorem highlight_remove_roundTrip_cex :
    removeHighlights
        (highlightKeyTerms ("a b".data) [("a b".data), ("b".data)]) ≠
      ("a b".data) := by
  decide

/-- Claim C4 (amended): the round trip does hold for every text containing
no `<` character and every term list with at most one term — then every
match is wrapped flat and `removeHighlights` restores the text exactly. -/
theorem highlight_remove_roundTrip_single_term (s : List Char)
    (ts : List (List Char)) (hfree : ∀ c ∈ s, ¬c = '<')
    (hlen : ts.length ≤ 1) :
    removeHighlights (highlightKeyTerms s ts) = s := by
  rcases ts with _ | ⟨t, _ | ⟨t₂, ts⟩⟩
  · simp only [highlightKeyTerms, List.isEmpty_nil, if_pos]
    exact removeGoF_of_free _ _ hfree (Nat.le_refl _)
  · have hsort : sortTermsDesc [t] = [t] := rfl
    have hne : ([t] : List (List Char)).isEmpty = false := rfl
    simp only [highlightKeyTerms, hne, Bool.false_eq_true, if_false, hsort,
      List.foldl_cons, List.foldl_nil]
    unfold passStep
    by_cases hb : isBlankTerm t
    · simp only [hb, if_pos]
      exact removeGoF_of_free _ _ hfree (Nat.le_refl _)
    · simp only [hb, Bool.false_eq_true, if_false]
      unfold runPass
      rw [parsePat_escapeRegex t]
      have := removeGoF_passGo s (t.map PatItem.lit) hfree s.length 0
      simpa [removeHighlights] using this
  · simp only [List.length_cons] at hlen
    omega

/-- Witness for the amended claim C4 at a concrete input. -/
theorem highlight_remove_roundTrip_single_term_witness :
    removeHighlights (highlightKeyTerms ("The cell.".data) [("cell".data)]) =
      ("The cell.".data) :=
  highlight_remove_roundTrip_single_term _ _ (by decide) (by decide)

/-! ## Claim C5 — longest-term-first ordering -/

/-- Claim C5: the engine sorts terms by descending character length before
scanning, and on the spec's example the phrase `"cell membrane"` is wrapped
as one whole unit by the first pass; `" membrane"` is never wrapped
separately.  The second pass additionally nests a marker around the inner
`"cell"` of the already wrapped phrase and wraps the final standalone
`"cell"` — the documented sequential-mutation behaviour, which the claim
does not exclude.  The exact output is stated in full. -/
theorem highlight_longest_first :
    (∀ ts : List (List Char), List.Chain' lenGE (sortTermsDesc ts)) ∧
    highlightKeyTerms ("The cell membrane surrounds the cell.".data)
        [("cell".data), ("cell membrane".data)] =
      ("The <mark><mark>cell</mark> membrane</mark> surrounds the <mark>cell</mark>.".data) ∧
    containsSub ("<mark> membrane".data)
      (highlightKeyTerms ("The cell membrane surrounds the cell.".data)
        [("cell".data), ("cell membrane".data)]) = false := by
  refine ⟨sortTermsDesc_chain', ?_, ?_⟩
  · decide
  · decide

/-! ## Claim C10 — totality, literal matching, blank-term skip -/

/-- Claim C10: the engine is total on every input.  The only operation that
could throw in the source is `new RegExp`, and escaping makes that
impossible: for EVERY term, the escaped pattern parses as the literal
character sequence of the term (so metacharacters such as `.`, `*`, `+`,
`(`, `[` are matched as literal text and never act as operators), and an
empty or whitespace-only term is skipped, leaving the string unchanged by
that term's pass. -/
theorem highlight_total_literal_skip :
    (∀ t : List Char, parsePat (escapeRegex t) = some (t.map PatItem.lit)) ∧
    (∀ acc t : List Char, isBlankTerm t = true → passStep acc t = acc) := by
  constructor
  · exact parsePat_escapeRegex
  · intro acc t hb
    simp [passStep, hb]

/-- Witness for claim C10: a term made of metacharacters parses literally,
and a whitespace-only term's pass is the identity. -/
theorem highlight_total_literal_skip_witness :
    parsePat (escapeRegex (".*+(".data)) =
      some ((".*+(".data).map PatItem.lit) ∧
    passStep ("x y".data) ("  ".data) = ("x y".data) :=
  ⟨highlight_total_literal_skip.1 _,
    highlight_total_literal_skip.2 _ _ (by decide)⟩

/-! ## The `/api/transform` route handler

The handler is embedded from the moment the request arrives.  The JSON
value returned by `JSON.parse` on the recovered reply text is a `JValue`;
the parse itself (a platform primitive, together with the fence-stripping
and brace-slicing regexes feeding it) is an oracle parameter
`recover : List Char → Option JValue`, so theorems quantify over every
possible recovery outcome.  Everything the claims are about — the
credential gate, the upstream error classification, the in-band error
scan, the coercion of the parsed value — is embedded concretely. -/

/-- Runtime JSON value (what `JSON.parse` can produce). -/
inductive JValue where
  | null
  | bool (b : Bool)
  | num (n : Int)
  | str (s : List Char)
  | arr (xs : List JValue)
  | obj (fields : List (List Char × JValue))

/-- JavaScript truthiness of a runtime value (`NaN` cannot arise here). -/
def jsTruthy : JValue → Bool
  | JValue.null => false
  | JValue.bool b => b
  | JValue.num n => n != 0
  | JValue.str s => !s.isEmpty
  | JValue.arr _ => true
  | JValue.obj _ => true

/-- Property access `v[k]` on a parsed value: `none` models `undefined`.
`JSON.parse` keeps the last of duplicate keys, so lookup is last-wins. -/
def lookupField (v : JValue) (k : List Char) : Option JValue :=
  match v with
  | JValue.obj fields => (fields.reverse.find? (fun p => p.1 == k)).map (·.2)
  | _ => none

/-- Is the parsed value `null`?  (`parsedResponse.formattedNotes` on `null`
throws a `TypeError`, caught by the same `catch` as a parse failure.) -/
def jIsNull : JValue → Bool
  | JValue.null => true
  | _ => false

/-- The three coerced fields of the route's `TransformResult`.  The runtime
object is untyped, so `formattedNotes` is kept as a `JValue`: the code's
`parsedResponse.formattedNotes || ''` passes any truthy value through. -/
structure TransformResult where
  formattedNotes : JValue
  highlights : List JValue
  comments : List JValue

/-- Field names used by the coercion. -/
def fnKey : List Char := "formattedNotes".data

/-- Field name of the highlights list. -/
def hlKey : List Char := "highlights".data

/-- Field name of the comments list. -/
def cmKey : List Char := "comments".data

/-- The coercion block of the route:
`formattedNotes: parsedResponse.formattedNotes || ''`,
`highlights: Array.isArray(x) ? x : []`, and the same for `comments`. -/
def coerceResult (v : JValue) : TransformResult :=
  { formattedNotes :=
      match lookupField v fnKey with
      | some x => if jsTruthy x then x else JValue.str []
      | none => JValue.str []
    highlights :=
      match lookupField v hlKey with
      | some (JValue.arr xs) => xs
      | _ => []
    comments :=
      match lookupField v cmKey with
      | some (JValue.arr xs) => xs
      | _ => [] }

/-- In-band failure scan of the raw reply:
`responseContent.toLowerCase().includes('error' | 'internal' | 'overloaded')`. -/
def hasInBandError (content : List Char) : Bool :=
  let lc := content.map Char.toLower
  containsSub ("error".data) lc || containsSub ("internal".data) lc ||
    containsSub ("overloaded".data) lc

/-- The three booleans of `TransformOptionsSchema`. -/
structure TransformOptions where
  autoFormat : Bool
  highlightKeyTerms : Bool
  comments : Bool

/-- A request that passed Zod validation: non-empty notes and full options. -/
structure TransformRequest where
  notes : List Char
  options : TransformOptions

/-- Outcome of the awaited `client.chatCompletion` call: it either threw
(with a message the handler classifies by substring) or yielded a reply
whose content is a string — the empty string also covers an absent
`choices[0]?.message.content`, both caught by `if (!responseContent)`. -/
inductive UpstreamOutcome where
  | threw (msg : List Char)
  | replied (content : List Char)

/-- Everything the transform handler can respond with, tagged by the error
taxonomy of the spec. -/
inductive ApiOutcome where
  | unauthenticated
  | invalidRequest
  | upstreamAuthError
  | rateLimited
  | unavailable
  | apiError (msg : List Char)
  | noContent
  | upstreamError (details : List Char)
  | parseFailure (details : List Char)
  | ok (result : TransformResult)

/-- Falsiness of `process.env.HF_TOKEN`: unset, or set to the empty string. -/
def tokenFalsy : Option (List Char) → Bool
  | none => true
  | some [] => true
  | some (_ :: _) => false

/-- The `POST` handler of `/api/transform`, from the credential gate to the
response, with the upstream call and the JSON recovery as oracles.  The
second component records whether the inference service was invoked. -/
def transformPost (hfToken : Option (List Char))
    (req : Option TransformRequest) (upstream : UpstreamOutcome)
    (recover : List Char → Option JValue) : ApiOutcome × Bool :=
  if tokenFalsy hfToken then (ApiOutcome.unauthenticated, false)
  else
    match req with
    | none => (ApiOutcome.invalidRequest, false)
    | some _ =>
      match upstream with
      | UpstreamOutcome.threw msg =>
        if containsSub ("401".data) msg || containsSub ("Unauthorized".data) msg then
          (ApiOutcome.upstreamAuthError, true)
        else if containsSub ("429".data) msg || containsSub ("rate".data) msg then
          (ApiOutcome.rateLimited, true)
        else if containsSub ("overloaded".data) msg then
          (ApiOutcome.unavailable, true)
        else (ApiOutcome.apiError msg, true)
      | UpstreamOutcome.replied content =>
        if content.isEmpty then (ApiOutcome.noContent, true)
        else if hasInBandError content then
          (ApiOutcome.upstreamError (content.take 200), true)
        else
          match recover content with
          | none => (ApiOutcome.parseFailure (content.take 200), true)
          | some v =>
            if jIsNull v then (ApiOutcome.parseFailure (content.take 200), true)
            else (ApiOutcome.ok (coerceResult v), true)

/-! ## The `/api/term-definition` route handler -/

/-- A term-definition request that passed Zod validation. -/
structure DefRequest where
  term : List Char
  context : List Char

/-- Responses of the definition handler (its `catch` has no `overloaded`
branch). -/
inductive DefOutcome where
  | unauthenticated
  | invalidRequest
  | upstreamAuthError
  | rateLimited
  | apiError (msg : List Char)
  | noContent
  | ok (term definition : List Char)

/-- JavaScript `String.prototype.trim` on ASCII content. -/
def trimChars (s : List Char) : List Char :=
  ((s.dropWhile isSpaceChar).reverse.dropWhile isSpaceChar).reverse

/-- The `POST` handler of `/api/term-definition`, from the credential gate
to the response, with the upstream call as an oracle. -/
def termDefinitionPost (hfToken : Option (List Char))
    (req : Option DefRequest) (upstream : UpstreamOutcome) :
    DefOutcome × Bool :=
  if tokenFalsy hfToken then (DefOutcome.unauthenticated, false)
  else
    match req with
    | none => (DefOutcome.invalidRequest, false)
    | some r =>
      match upstream with
      | UpstreamOutcome.threw msg =>
        if containsSub ("401".data) msg || containsSub ("Unauthorized".data) msg then
          (DefOutcome.upstreamAuthError, true)
        else if containsSub ("429".data) msg || containsSub ("rate".data) msg then
          (DefOutcome.rateLimited, true)
        else (DefOutcome.apiError msg, true)
      | UpstreamOutcome.replied content =>
        if content.isEmpty then (DefOutcome.noContent, true)
        else (DefOutcome.ok r.term (trimChars content), true)

/-! ## The `useTermDefinitions` hook — definition batch and cache

`loadTermDefinitions` maps each term to a `fetch(...).then(json).then(pick)
.catch(fallback)` promise, awaits them all with `Promise.all` (every promise
already has its rejection handled individually, so the combinator never
rejects), and builds the hashmap `term → definition` written wholesale by
`setTermDefinitions`.  The per-term network-and-parse outcome is a
`LookupOutcome` oracle, supplied positionally (one per term). -/

/-- Result of one per-term `fetch` chain before the `catch`: either a parsed
response body, or any rejection along the chain. -/
inductive LookupOutcome where
  | ok (data : JValue)
  | fail

/-- The fallback text installed by the per-term `catch`. -/
def failedMsg : List Char := "Failed to load definition".data

/-- Field name of the definition in the response body. -/
def defKey : List Char := "definition".data

/-- One settled per-term promise:
on success `data.definition || "No definition available"`, on any rejection
the per-term `catch` yields `"Failed to load definition"`. -/
def perTermDef (p : List Char × LookupOutcome) : List Char × JValue :=
  match p.2 with
  | LookupOutcome.fail => (p.1, JValue.str failedMsg)
  | LookupOutcome.ok data =>
    (p.1,
      match lookupField data defKey with
      | some x =>
        if jsTruthy x then x else JValue.str ("No definition available".data)
      | none => JValue.str ("No definition available".data))

/-- The definition cache: the JavaScript object built by
`definitions.forEach(({term, definition}) => map[term] = definition)`.
Later assignments win, so lookup searches from the end. -/
abbrev DefMap : Type := List (List Char × JValue)

/-- Object property read on the cache. -/
def mapGet (m : DefMap) (k : List Char) : Option JValue :=
  ((List.reverse m).find? (fun p => p.1 == k)).map (·.2)

/-- Function `loadTermDefinitions(terms, context)`: fan out one lookup per term,
fan in all settled outcomes, build the map. -/
def loadTermDefinitions (terms : List (List Char))
    (outcomes : List LookupOutcome) : DefMap :=
  ((terms.zip outcomes).map perTermDef).foldl
    (fun m td => m ++ [(td.1, td.2)]) []

/-! ## Overlapping definition batches

The hook stores the cache with `setTermDefinitions(definitionsMap)` — a
wholesale replacement carrying no generation marker.  When two batches are
in flight, whichever settles later performs the later replacement. -/

/-- Completion events of two overlapping batches. -/
inductive RaceEvent where
  | settleFirst
  | settleSecond

/-- Effect of one batch completion on the cache state: the batch's map
replaces the state unconditionally (this is exactly
`setTermDefinitions(definitionsMap)`; nothing in the hook compares
generations). -/
def applyEvent (batch1 batch2 : DefMap) (_state : DefMap) :
    RaceEvent → DefMap
  | RaceEvent.settleFirst => batch1
  | RaceEvent.settleSecond => batch2

/-- Cache state after both batches settle in the given order. -/
def runRace (batch1 batch2 : DefMap) (events : List RaceEvent)
    (init : DefMap) : DefMap :=
  events.foldl (applyEvent batch1 batch2) init

/-! ## Claim C9 — fail fast on a missing credential -/

/-- Claim C9: when `HF_TOKEN` is absent, both route handlers answer
`Unauthenticated` and the inference service is never invoked: the outcome
is the same for every request, every possible upstream behaviour and every
recovery function, and the invoked-upstream flag is `false`. -/
theorem missing_token_unauthenticated :
    (∀ (req : Option TransformRequest) (upstream : UpstreamOutcome)
        (recover : List Char → Option JValue),
      transformPost none req upstream recover =
        (ApiOutcome.unauthenticated, false)) ∧
    (∀ (req : Option DefRequest) (upstream : UpstreamOutcome),
      termDefinitionPost none req upstream =
        (DefOutcome.unauthenticated, false)) :=
  ⟨fun _ _ _ => rfl, fun _ _ => rfl⟩

/-! ## Claim C6 — in-band error phrases veto recovery -/

/-- Claim C6: when the raw reply contains (case-insensitively) `"error"`,
`"internal"` or `"overloaded"`, the handler answers `UpstreamError` with the
first 200 characters of the raw reply, for EVERY recovery function — so no
fence-stripping, brace-slicing or parsing can influence the outcome — and
the details never exceed 200 characters. -/
theorem inband_error_skips_recovery (tok : List Char) (htok : tok ≠ [])
    (req : TransformRequest) (content : List Char)
    (hband : hasInBandError content = true) :
    (∀ recover : List Char → Option JValue,
      transformPost (some tok) (some req)
          (UpstreamOutcome.replied content) recover =
        (ApiOutcome.upstreamError (content.take 200), true)) ∧
    (content.take 200).length ≤ 200 := by
  have hne : content.isEmpty = false := by
    cases content with
    | nil => exact absurd hband (by decide)
    | cons c t => rfl
  constructor
  · intro recover
    unfold transformPost
    have ht : tokenFalsy (some tok) = false := by
      cases tok with
      | nil => exact absurd rfl htok
      | cons a t => rfl
    rw [ht]
    simp [hne, hband]
  · exact List.length_take_le 200 content

/-- Witness for claim C6: a reply self-reporting an internal server error. -/
theorem inband_error_skips_recovery_witness :
    (∀ recover : List Char → Option JValue,
      transformPost (some ("t".data))
          (some ⟨("n".data), ⟨false, false, false⟩⟩)
          (UpstreamOutcome.replied ("Internal Server Error".data)) recover =
        (ApiOutcome.upstreamError (("Internal Server Error".data).take 200),
          true)) ∧
    ((("Internal Server Error".data).take 200).length ≤ 200) :=
  inband_error_skips_recovery ("t".data) (by decide)
    ⟨("n".data), ⟨false, false, false⟩⟩ ("Internal Server Error".data)
    (by decide)

/-! ## Claim C1 — the option invariant is NOT enforced server-side -/

/-- A transform request with both list options switched off. -/
def reqOptsOff : TransformRequest :=
  ⟨("notes".data), ⟨false, false, false⟩⟩

/-- A parsed upstream reply carrying non-empty highlights and comments. -/
def parsedWithLists : JValue :=
  JValue.obj [(fnKey, JValue.str ("ok".data)),
    (hlKey, JValue.arr [JValue.str ("h".data)]),
    (cmKey, JValue.arr [JValue.str ("c".data)])]

/-- Claim C1 (counterexample): with `highlightKeyTerms = false` and
`comments = false` in the request, a successfully parsed reply containing a
non-empty `highlights` array and a non-empty `comments` array is returned
verbatim — the handler's coercion block never consults the options, so the
returned lists are NOT empty, contradicting the claimed enforcement. -/
theorem option_invariant_not_enforced_cex :
    transformPost (some ("t".data)) (some reqOptsOff)
        (UpstreamOutcome.replied ("x".data)) (fun _ => some parsedWithLists) =
      (ApiOutcome.ok
        ⟨JValue.str ("ok".data), [JValue.str ("h".data)],
          [JValue.str ("c".data)]⟩, true) ∧
    reqOptsOff.options.highlightKeyTerms = false ∧
    reqOptsOff.options.comments = false ∧
    ([JValue.str ("h".data)] : List JValue).isEmpty = false ∧
    ([JValue.str ("c".data)] : List JValue).isEmpty = false :=
  ⟨rfl, rfl, rfl, rfl, rfl⟩

/-- Claim C1 (amended): on parse success the handler returns exactly the
coerced parse of the reply, REGARDLESS of the request's options — in
particular, with `highlightKeyTerms = false` and `comments = false` the
returned `highlights`/`comments` are whatever arrays the reply carried
(empty only when the parsed field is not an array). -/
theorem option_false_returns_parsed_lists (tok : List Char) (htok : tok ≠ [])
    (req : TransformRequest)
    (hopt1 : req.options.highlightKeyTerms = false)
    (hopt2 : req.options.comments = false)
    (content : List Char) (hne : content.isEmpty = false)
    (hband : hasInBandError content = false)
    (recover : List Char → Option JValue) (v : JValue)
    (hrec : recover content = some v) (hnull : jIsNull v = false) :
    transformPost (some tok) (some req)
        (UpstreamOutcome.replied content) recover =
      (ApiOutcome.ok (coerceResult v), true) ∧
    (∀ xs, lookupField v hlKey = some (JValue.arr xs) →
      (coerceResult v).highlights = xs) ∧
    (∀ ys, lookupField v cmKey = some (JValue.arr ys) →
      (coerceResult v).comments = ys) := by
  refine ⟨?_, ?_, ?_⟩
  · unfold transformPost
    have ht : tokenFalsy (some tok) = false := by
      cases tok with
      | nil => exact absurd rfl htok
      | cons a t => rfl
    rw [ht]
    simp [hne, hband, hrec, hnull]
  · intro xs hxs
    simp [coerceResult, hxs]
  · intro ys hys
    simp [coerceResult, hys]

/-- Witness for the amended claim C1 at a concrete stubbed reply. -/
theorem option_false_returns_parsed_lists_witness :
    transformPost (some ("t".data)) (some reqOptsOff)
        (UpstreamOutcome.replied ("x".data)) (fun _ => some parsedWithLists) =
      (ApiOutcome.ok (coerceResult parsedWithLists), true) ∧
    (coerceResult parsedWithLists).highlights = [JValue.str ("h".data)] := by
  have h := option_false_returns_parsed_lists ("t".data) (by decide)
    reqOptsOff rfl rfl ("x".data) (by decide) (by decide)
    (fun _ => some parsedWithLists) parsedWithLists rfl rfl
  exact ⟨h.1, h.2.1 _ rfl⟩

/-! ## Claim C8 — coercion rules of the parsed reply -/

/-- Is a runtime value the empty string? -/
def isEmptyStrV : JValue → Bool
  | JValue.str [] => true
  | _ => false

/-- JavaScript falsiness of a possibly-absent value. -/
def jsFalsyOpt : Option JValue → Bool
  | none => true
  | some x => !jsTruthy x

/-- Test `Array.isArray` on a possibly-absent value. -/
def isArrOpt : Option JValue → Bool
  | some (JValue.arr _) => true
  | _ => false

/-- A parsed reply whose `formattedNotes` is a truthy non-string. -/
def truthyNonString : JValue := JValue.obj [(fnKey, JValue.num 42)]

/-- Claim C8 (counterexample): the claim says `formattedText` is coerced to
the empty string whenever the parsed field is absent OR NOT A STRING.  The
code uses `parsedResponse.formattedNotes || ''`, which passes any truthy
value through: on a reply whose `formattedNotes` is the number `42`, the
result carries `42`, not the empty string. -/
theorem coerce_formattedNotes_not_string_cex :
    (coerceResult truthyNonString).formattedNotes = JValue.num 42 ∧
    isEmptyStrV ((coerceResult truthyNonString).formattedNotes) = false :=
  ⟨rfl, rfl⟩

/-- Claim C8 (amended): the coercion yields the empty string exactly when
the parsed `formattedNotes` field is absent or FALSY (truthy values —
including non-strings — pass through unchanged); `highlights` is the parsed
array when the field is an array and empty otherwise, without error, and
`comments` follows the same rule. -/
theorem coerce_rules (v : JValue) :
    (jsFalsyOpt (lookupField v fnKey) = true →
      (coerceResult v).formattedNotes = JValue.str []) ∧
    (∀ x, lookupField v fnKey = some x → jsTruthy x = true →
      (coerceResult v).formattedNotes = x) ∧
    (isArrOpt (lookupField v hlKey) = false → (coerceResult v).highlights = []) ∧
    (∀ xs, lookupField v hlKey = some (JValue.arr xs) →
      (coerceResult v).highlights = xs) ∧
    (isArrOpt (lookupField v cmKey) = false → (coerceResult v).comments = []) ∧
    (∀ ys, lookupField v cmKey = some (JValue.arr ys) →
      (coerceResult v).comments = ys) := by
  refine ⟨?_, ?_, ?_, ?_, ?_, ?_⟩
  · intro h
    unfold coerceResult
    cases hf : lookupField v fnKey with
    | none => simp
    | some x =>
      rw [hf] at h
      simp only [jsFalsyOpt, Bool.not_eq_true'] at h
      simp [h]
  · intro x hx htr
    simp [coerceResult, hx, htr]
  · intro h
    unfold coerceResult
    cases hl : lookupField v hlKey with
    | none => simp
    | some x =>
      rw [hl] at h
      cases x with
      | arr xs => simp [isArrOpt] at h
      | null => simp
      | bool b => simp
      | num n => simp
      | str s => simp
      | obj fields => simp
  · intro xs hxs
    simp [coerceResult, hxs]
  · intro h
    unfold coerceResult
    cases hc : lookupField v cmKey with
    | none => simp
    | some x =>
      rw [hc] at h
      cases x with
      | arr ys => simp [isArrOpt] at h
      | null => simp
      | bool b => simp
      | num n => simp
      | str s => simp
      | obj fields => simp
  · intro ys hys
    simp [coerceResult, hys]

/-- Witness for the amended claim C8: an absent field coerces to the empty
string, and an array field passes through. -/
theorem coerce_rules_witness :
    (coerceResult (JValue.obj [])).formattedNotes = JValue.str [] ∧
    (coerceResult parsedWithLists).highlights = [JValue.str ("h".data)] :=
  ⟨(coerce_rules (JValue.obj [])).1 rfl,
    (coerce_rules parsedWithLists).2.2.2.1 _ rfl⟩

/-! ## Claim C7 — per-term fallback and total cache coverage -/

/-- The accumulating build of the cache is just the settled pair list. -/
theorem loadTermDefinitions_eq (terms : List (List Char))
    (outcomes : List LookupOutcome) :
    loadTermDefinitions terms outcomes = (terms.zip outcomes).map perTermDef := by
  unfold loadTermDefinitions
  have hgen : ∀ (l acc : DefMap),
      l.foldl (fun m td => m ++ [(td.1, td.2)]) acc = acc ++ l := by
    intro l
    induction l with
    | nil => intro acc; simp
    | cons a l ih =>
      intro acc
      rw [List.foldl_cons, ih]
      simp
  rw [hgen]
  simp

/-- A settled per-term promise keeps its term as the key. -/
theorem perTermDef_fst (p : List Char × LookupOutcome) :
    (perTermDef p).1 = p.1 := by
  cases p with
  | mk t o => cases o <;> rfl

/-- The concrete three-term batch of the claim, with the lookup for `"B"`
failing. -/
def batchABC : DefMap :=
  loadTermDefinitions [("A".data), ("B".data), ("C".data)]
    [LookupOutcome.ok (JValue.obj [(defKey, JValue.str ("alpha".data))]),
     LookupOutcome.fail,
     LookupOutcome.ok (JValue.obj [(defKey, JValue.str ("gamma".data))])]

/-- Claim C7: a failed per-term lookup is individually replaced by the
fallback text, and the settled cache has an entry for EVERY requested term
(one outcome per term).  On the claim's instance `["A","B","C"]` with the
lookup for `"B"` failing, all three terms are mapped and `"B"` maps to the
fallback. -/
theorem definition_batch_fallback :
    (∀ (terms : List (List Char)) (outcomes : List LookupOutcome),
      terms.length ≤ outcomes.length →
      ∀ t ∈ terms,
        (mapGet (loadTermDefinitions terms outcomes) t).isSome = true) ∧
    (∀ t : List Char,
      perTermDef (t, LookupOutcome.fail) = (t, JValue.str failedMsg)) ∧
    mapGet batchABC ("B".data) = some (JValue.str failedMsg) ∧
    mapGet batchABC ("A".data) = some (JValue.str ("alpha".data)) ∧
    mapGet batchABC ("C".data) = some (JValue.str ("gamma".data)) := by
  refine ⟨?_, fun t => rfl, rfl, rfl, rfl⟩
  intro terms outcomes hlen t ht
  rw [loadTermDefinitions_eq]
  have hfst : ((terms.zip outcomes).map perTermDef).map Prod.fst = terms := by
    rw [List.map_map]
    have : (terms.zip outcomes).map (Prod.fst ∘ perTermDef) =
        (terms.zip outcomes).map Prod.fst :=
      List.map_eq_map_iff.mpr (fun p _ => perTermDef_fst p)
    rw [this, List.map_fst_zip terms outcomes hlen]
  have ht' : t ∈ ((terms.zip outcomes).map perTermDef).map Prod.fst := by
    rw [hfst]; exact ht
  obtain ⟨p, hp, hpt⟩ := List.mem_map.mp ht'
  unfold mapGet
  rw [Option.isSome_map']
  refine List.find?_isSome.mpr ⟨p, List.mem_reverse.mpr hp, ?_⟩
  simp [hpt]

/-- Witness for claim C7: coverage of the concrete batch via the theorem. -/
theorem definition_batch_fallback_witness :
    (mapGet batchABC ("A".data)).isSome = true :=
  definition_batch_fallback.1 [("A".data), ("B".data), ("C".data)]
    [LookupOutcome.ok (JValue.obj [(defKey, JValue.str ("alpha".data))]),
     LookupOutcome.fail,
     LookupOutcome.ok (JValue.obj [(defKey, JValue.str ("gamma".data))])]
    (by decide) ("A".data) (by decide)

/-! ## Claim C3 — no generation guard on the definition cache -/

/-- First batch of the race: one term `"X"`. -/
def raceBatchFirst : DefMap :=
  loadTermDefinitions [("X".data)]
    [LookupOutcome.ok (JValue.obj [(defKey, JValue.str ("dx".data))])]

/-- Second batch of the race: one term `"Y"`. -/
def raceBatchSecond : DefMap :=
  loadTermDefinitions [("Y".data)]
    [LookupOutcome.ok (JValue.obj [(defKey, JValue.str ("dy".data))])]

/-- Cache after the second-started batch settles first and the first-started
batch settles last. -/
def raceFinal : DefMap :=
  runRace raceBatchFirst raceBatchSecond
    [RaceEvent.settleSecond, RaceEvent.settleFirst] []

/-- Claim C3 (code bug): `loadTermDefinitions` writes the cache with
`setTermDefinitions(definitionsMap)` — a wholesale replacement with no
generation marker — so when the first transform's batch resolves AFTER the
second's, the final cache is the FIRST batch's map: the first batch's entry
`"X"` is visible and the second batch's entry `"Y"` is gone, contradicting
the claimed generation guard. -/
theorem race_last_settler_wins :
    raceFinal = raceBatchFirst ∧
    (mapGet raceFinal ("Y".data)).isSome = false ∧
    (mapGet raceFinal ("X".data)).isSome = true :=
  ⟨rfl, rfl, rfl⟩

end NoteGlow
